import Mathlib

set_option maxRecDepth 4000

/-!
Verification of the extrablatt HTML→Article extraction engine.

The DOM is modelled as a tree of element/text nodes (the output of a
standard HTML parser, which the engine consumes read-only).  Every node of a
parsed document is assigned its pre-order index, matching the flat node
vector of the `select` crate.  Floating-point scores are modelled over `ℚ`
(all quantities involved are small exact fractions), and Rust string
operations are modelled by executable functions over the character list of
a `String`.
-/

/-! ## String helpers modelling Rust `str` operations -/

/-- Characters considered whitespace by the model (ASCII subset used by the
engine's inputs). -/
def isWs (c : Char) : Bool := c.isWhitespace

/-- Model of `char::to_lowercase` (ASCII). -/
def lowerChar (c : Char) : Char := c.toLower

/-- Model of `str::to_lowercase`. -/
def lowerStr (s : String) : String := ⟨s.data.map lowerChar⟩

/-- Trim characters satisfying `p` from the front and back of a character
list, modelling `str::trim_matches`. -/
def trimBy (p : Char → Bool) (cs : List Char) : List Char :=
  ((cs.dropWhile p).reverse.dropWhile p).reverse

/-- Model of `str::trim`. -/
def sTrim (s : String) : String := ⟨trimBy isWs s.data⟩

/-- Model of `str::split(pred)` on a character predicate: splits at every
matching character, keeping empty pieces. -/
def splitByAux (p : Char → Bool) : List Char → List Char → List (List Char)
  | [], acc => [acc.reverse]
  | c :: cs, acc =>
      if p c then acc.reverse :: splitByAux p cs []
      else splitByAux p cs (c :: acc)

/-- Model of `str::split(pred)`. -/
def sSplitBy (p : Char → Bool) (s : String) : List String :=
  (splitByAux p s.data []).map fun cs => ⟨cs⟩

/-- Model of `str::split_whitespace`: whitespace-separated words, empties
discarded. -/
def splitWs (s : String) : List String :=
  (sSplitBy isWs s).filter fun w => w ≠ ""

/-- Whether the character list `pat` is a prefix of `cs`. -/
def isPrefixCB : List Char → List Char → Bool
  | [], _ => true
  | _ :: _, [] => false
  | a :: as, b :: bs => a == b && isPrefixCB as bs

/-- Whether the character list `pat` occurs inside `cs` (model of
`str::contains` for string patterns). -/
def isInfixCB (pat : List Char) : List Char → Bool
  | [] => isPrefixCB pat []
  | c :: cs => isPrefixCB pat (c :: cs) || isInfixCB pat cs

/-- Model of `str::contains(&str)`. -/
def sContains (s pat : String) : Bool := isInfixCB pat.data s.data

/-- Model of `str::starts_with(&str)`. -/
def sStartsWith (s pat : String) : Bool := isPrefixCB pat.data s.data

/-- Model of `str::contains(char)`. -/
def sContainsChar (s : String) (c : Char) : Bool := s.data.any (· == c)

/-- Replace every (non-overlapping, left-to-right) occurrence of `pat` by
`rep`, modelling `str::replace`.  A fuel argument (the length of the
string) keeps the recursion structural. -/
def sReplaceAux (pat rep : List Char) : Nat → List Char → List Char
  | 0, cs => cs
  | _ + 1, [] => []
  | fuel + 1, c :: cs =>
      if pat ≠ [] && isPrefixCB pat (c :: cs) then
        rep ++ sReplaceAux pat rep fuel ((c :: cs).drop pat.length)
      else
        c :: sReplaceAux pat rep fuel cs

/-- Model of `str::replace(&str, &str)`. -/
def sReplace (s pat rep : String) : String :=
  ⟨sReplaceAux pat.data rep.data s.data.length s.data⟩

/-- Model of `str::len` (UTF-8 byte length). -/
def sByteLen (s : String) : Nat := (s.data.map Char.utf8Size).sum

/-- Model of `str::chars().count()`. -/
def sCharLen (s : String) : Nat := s.data.length

/-! ## The DOM model -/

/-- A node of the parsed HTML tree: an element with a tag, ordered
attributes and children, or a text node. -/
inductive HNode where
  | elem (tag : String) (attrs : List (String × String)) (children : List HNode)
  | text (s : String)

mutual

/-- Number of nodes in the subtree rooted at a node (the node included),
matching the contiguous block the node occupies in the parser's flat
pre-order node vector. -/
def hsize : HNode → Nat
  | .text _ => 1
  | .elem _ _ cs => 1 + hsizeL cs
  termination_by structural n => n

/-- Total node count of a forest. -/
def hsizeL : List HNode → Nat
  | [] => 0
  | c :: cs => hsize c + hsizeL cs
  termination_by structural l => l

end

mutual

/-- Model of `Node::text()`: concatenation of all descendant text, in
document order, with no separators. -/
def textOf : HNode → String
  | .text s => s
  | .elem _ _ cs => textOfL cs
  termination_by structural n => n

/-- Concatenated text of a forest. -/
def textOfL : List HNode → String
  | [] => ""
  | c :: cs => textOf c ++ textOfL cs
  termination_by structural l => l

end

/-- The children of a node (text nodes have none). -/
def childrenOf : HNode → List HNode
  | .text _ => []
  | .elem _ _ cs => cs

/-- Model of `Node::attr(key)`: the value of the first attribute with the
given (already lower-cased by the parser) name. -/
def attrOf (n : HNode) (k : String) : Option String :=
  match n with
  | .text _ => none
  | .elem _ attrs _ => (attrs.find? fun p => p.1 == k).map Prod.snd

/-- Model of `Node::as_text()`: `some` only for text nodes. -/
def asText : HNode → Option String
  | .text s => some s
  | .elem _ _ _ => none

/-- Model of the `Name(tag)` predicate of the `select` crate. -/
def isNamedElem (tag : String) (n : HNode) : Bool :=
  match n with
  | .elem t _ _ => t == tag
  | .text _ => false

/-- Model of the `Class(token)` predicate of the `select` crate: the
`class` attribute, split on whitespace, contains the token. -/
def hasClassToken (tok : String) (n : HNode) : Bool :=
  match attrOf n "class" with
  | some cls => (splitWs cls).any (· == tok)
  | none => false

/-- Model of the `Attr(key, value)` predicate of the `select` crate: the
attribute is present with exactly the given value. -/
def attrIs (n : HNode) (k v : String) : Bool :=
  attrOf n k == some v

mutual

/-- List of subtrees of all descendants of the node, in pre-order
(the node itself excluded). -/
def descSubtrees : HNode → List HNode
  | .text _ => []
  | .elem _ _ cs => descSubtreesL cs
  termination_by structural n => n

/-- Subtrees of all nodes of a forest, in pre-order. -/
def descSubtreesL : List HNode → List HNode
  | [] => []
  | c :: cs => c :: (descSubtrees c ++ descSubtreesL cs)
  termination_by structural l => l

end

/-- Model of `Node::find(pred)` restricted to descendants: the descendant
subtrees whose root matches. -/
def findDesc (p : HNode → Bool) (n : HNode) : List HNode :=
  (descSubtrees n).filter p

/-! ## Flattened pre-order view with node indices

Every node of a document gets an `Entry` carrying its subtree, its
pre-order index (the `select` crate's `Node::index()`), the index of its
parent, the chain of its ancestors (nearest first) and its sibling
subtrees in both directions (nearest first). -/

/-- One node of the flat pre-order node vector of a parsed document. -/
structure Entry where
  node : HNode
  idx : Nat
  parent : Option Nat
  ancestors : List HNode
  prevSibs : List HNode
  nextSibs : List HNode

mutual

/-- Entries of the subtree rooted at `n`, whose root sits at index `i`. -/
def flat1 (anc : List HNode) (p : Option Nat) (i : Nat)
    (prevs nexts : List HNode) (n : HNode) : List Entry :=
  ⟨n, i, p, anc, prevs, nexts⟩ ::
    (match n with
     | .text _ => []
     | .elem t a cs => flatL ((HNode.elem t a cs) :: anc) (some i) (i + 1) [] cs)
  termination_by structural n

/-- Entries of a forest of consecutive siblings starting at index `i`. -/
def flatL (anc : List HNode) (p : Option Nat) (i : Nat)
    (prevs : List HNode) : List HNode → List Entry
  | [] => []
  | c :: cs => flat1 anc p i prevs cs c ++ flatL anc p (i + hsize c) (c :: prevs) cs
  termination_by structural l => l

end

/-- The flat pre-order node vector of a document given by its root
forest, matching `Document::nodes`. -/
def entries (roots : List HNode) : List Entry :=
  flatL [] none 0 [] roots

/-! ## `text.rs`: constants and the `TextContainer` node predicates -/

/-- Attribute key-value combinations identifying the root node for
textual content (`ARTICLE_BODY_ATTR`). -/
def ARTICLE_BODY_ATTR : List (String × String) :=
  [("itemprop", "articleBody"),
   ("data-testid", "article-body"),
   ("name", "articleBody"),
   ("class", "content"),
   ("class", "article-content"),
   ("class", "post-content"),
   ("class", "entry-content"),
   ("class", "main-content"),
   ("id", "content"),
   ("id", "article-content"),
   ("id", "main-content"),
   ("role", "article"),
   ("data-role", "content")]

/-- Negative attributes indicating non-content sections
(`NON_CONTENT_ATTR`). -/
def NON_CONTENT_ATTR : List (String × String) :=
  [("class", "sidebar"),
   ("class", "navigation"),
   ("class", "nav"),
   ("class", "menu"),
   ("class", "footer"),
   ("class", "header"),
   ("class", "advertisement"),
   ("class", "ad"),
   ("class", "comments"),
   ("class", "widget"),
   ("data-image-caption", ""),
   ("role", "navigation"),
   ("role", "complementary"),
   ("data-role", "sidebar")]

/-- The punctuation class of `text.rs` (`PUNCTUATION`). -/
def PUNCTUATION : String := ",.\"'!?&-/:;()#$%*+<=>@[\\]^_`\x7b|\x7d~"

/-- Whether the char is a punctuation (`is_punctuation`). -/
def is_punctuation (c : Char) : Bool := sContainsChar PUNCTUATION c

/-- All words of a text: split on whitespace or punctuation, empties
discarded (`ArticleTextNodeExtractor::words`). -/
def wordsOf (txt : String) : List String :=
  (sSplitBy (fun c => isWs c || is_punctuation c) txt).filter fun s => s ≠ ""

/-- Model of `TextContainer::first_children_text`: the first direct child
that is a text node. -/
def first_children_text (n : HNode) : Option String :=
  (childrenOf n).findSome? asText

/-- Model of `TextContainer::text_content_length` (char count of the
node's text). -/
def text_content_length (n : HNode) : Nat := sCharLen (textOf n)

/-- Model of `TextContainer::link_density`: total chars of text under
descendant `<a>` elements over chars of the node's text; `1` when the
node's text is empty. -/
def link_density (n : HNode) : ℚ :=
  let linkTextLength : Nat := ((findDesc (isNamedElem "a") n).map
    fun a => sCharLen (textOf a)).sum
  let totalTextLength := text_content_length n
  if totalTextLength = 0 then 1
  else (linkTextLength : ℚ) / (totalTextLength : ℚ)

/-- Class substrings marking footer/bottom/ad sections, as tested (on the
lower-cased `class` attribute) by `is_noise_node` both on the node and on
its ancestors. -/
def noiseClassSub (n : HNode) : Bool :=
  match attrOf n "class" with
  | some cls =>
      let cl := lowerStr cls
      sContains cl "articlebottom" || sContains cl "article-bottom" ||
      sContains cl "footer" || sContains cl "sidebar" ||
      sContains cl "widget" || sContains cl "related-" ||
      sContains cl "recommendation"
  | none => false

/-- The per-ancestor test of `is_noise_node`'s parent walk: script-like
tags, image-caption markers, ad containers, footer/bottom classes. -/
def noiseAncestorHit (a : HNode) : Bool :=
  (isNamedElem "script" a || isNamedElem "style" a || isNamedElem "noscript" a ||
   isNamedElem "figcaption" a || isNamedElem "figure" a) ||
  (attrOf a "data-image-caption").isSome ||
  (attrOf a "data-creative").isSome ||
  noiseClassSub a

/-- Model of `TextContainer::is_noise_node` for a node with the given
ancestor chain (nearest ancestor first). -/
def is_noise_node (n : HNode) (anc : List HNode) : Bool :=
  (isNamedElem "script" n || isNamedElem "style" n || isNamedElem "link" n ||
   isNamedElem "meta" n || isNamedElem "noscript" n || isNamedElem "figcaption" n ||
   isNamedElem "figure" n) ||
  (attrOf n "data-image-caption").isSome ||
  (attrOf n "data-creative").isSome ||
  noiseClassSub n ||
  (isNamedElem "img" n &&
    (match attrOf n "style" with
     | some style =>
         sContains style "display: none" || sContains style "visibility: hidden" ||
         (sContains style "position: absolute" && sContains style "left: -9999px")
     | none => false)) ||
  anc.any noiseAncestorHit

/-! ## `text.rs`: the text-node enumerator `TextNodeFind` -/

/-- Model of `TextNodeFind::is_text_node`: `<p>`, `<pre>`, `<td>`,
`<article>`, or a `<div>` whose `class` or `id` contains an
article-related substring. -/
def is_text_node (n : HNode) : Bool :=
  if isNamedElem "p" n || isNamedElem "pre" n || isNamedElem "td" n ||
     isNamedElem "article" n then true
  else if isNamedElem "div" n then
    (match attrOf n "class" with
     | some cls =>
         sContains cls "article" || sContains cls "story" ||
         sContains cls "paragraph" || sContains cls "content" ||
         sContains cls "post" || sContains cls "entry"
     | none => false) ||
    (match attrOf n "id" with
     | some id =>
         sContains id "article" || sContains id "story" || sContains id "content"
     | none => false)
  else false

/-- Model of `TextNodeFind::is_bad`: tags and class tokens of
non-content elements. -/
def is_bad (n : HNode) : Bool :=
  isNamedElem "figure" n || isNamedElem "figcaption" n || isNamedElem "media" n ||
  isNamedElem "aside" n || isNamedElem "nav" n || isNamedElem "footer" n ||
  isNamedElem "header" n || isNamedElem "script" n || isNamedElem "style" n ||
  isNamedElem "link" n || isNamedElem "meta" n || isNamedElem "noscript" n ||
  hasClassToken "advertisement" n || hasClassToken "ad" n ||
  hasClassToken "sidebar" n || hasClassToken "navigation" n ||
  hasClassToken "comments" n || hasClassToken "caption" n

/-- Model of `TextNodeFind::is_non_content_by_attr`. -/
def is_non_content_by_attr (n : HNode) : Bool :=
  NON_CONTENT_ATTR.any fun kv => attrIs n kv.1 kv.2

/-- A node at which the `TextNodeFind` iterator skips the whole subtree. -/
def tnfReject (n : HNode) (anc : List HNode) : Bool :=
  is_bad n || is_non_content_by_attr n || is_noise_node n anc

/-- No node of the ancestor chain (each checked with its own ancestors)
is rejected by the iterator. -/
def chainOk : List HNode → Bool
  | [] => true
  | a :: rest => !tnfReject a rest && chainOk rest

/-- Whether the `TextNodeFind` iterator yields this entry: the node is a
candidate text node and neither it nor any ancestor is rejected (a
rejected node's whole subtree is skipped). -/
def tnfYield (e : Entry) : Bool :=
  chainOk e.ancestors && !tnfReject e.node e.ancestors && is_text_node e.node

/-- Model of `ArticleTextNodeExtractor::nodes_to_check`: the candidates
yielded by `TextNodeFind`, in document order. -/
def nodes_to_check (roots : List HNode) : List Entry :=
  (entries roots).filter tnfYield

/-! ## `text.rs`: noise-text heuristic and word statistics -/

/-- Model of `ArticleTextNode::is_noise_text`. -/
def is_noise_text (text0 : String) : Bool :=
  let text := sTrim text0
  if sByteLen text < 10 then false
  else if (sContains text "stylesheet" && sContains text ".css") ||
          (sContains text "rel=\"" && sContains text "href=\"") ||
          sContains text "<script" || sContains text "<style" ||
          sContains text "<link" || sContains text "<meta" then true
  else if sContains text "position: absolute" && sContains text "left: -9999px" then
    true
  else if sStartsWith text "http://" || sStartsWith text "https://" ||
          sContains text "/dist/" || sContains text "/assets/" then true
  else if sContainsChar text '-' && sContainsChar text '.' &&
          text.data.any Char.isUpper then
    (splitWs text).length = 1 && sByteLen text > 20
  else false

/-- Statistic about words for a text (`WordsStats`). -/
structure WordsStats where
  word_count : Nat
  stopword_count : Nat
  avg_word_length : ℚ

/-- A language's stopword counter.  The `Language` module is an external
collaborator of `text.rs`; the scorer only consumes a function
`text → Option WordsStats`. -/
def StopCounter := String → Option WordsStats

/-- Modelled from the spec: `Language::stopword_count` (§4.2), for a
language whose stopword table is `stops`.  Words are produced by the
source's `ArticleTextNodeExtractor::words` splitter; the stopword count
is the number of words whose lower-cased trimmed form is in the table;
the average word length is the mean code-point length. -/
def stopwordCountWith (stops : List String) : StopCounter := fun text =>
  let ws := wordsOf text
  let stop := (ws.filter fun w => stops.contains (lowerStr (sTrim w))).length
  let avg : ℚ :=
    if ws.length = 0 then 0
    else ((ws.map sCharLen).sum : ℚ) / (ws.length : ℚ)
  some ⟨ws.length, stop, avg⟩

/-! ## `text.rs`: the body-node scorer -/

/-- `ArticleTextNodeExtractor::MINIMUM_STOPWORD_COUNT`. -/
def MINIMUM_STOPWORD_COUNT : Nat := 5

/-- `ArticleTextNodeExtractor::MAX_STEPSAWAY_FROM_NODE`. -/
def MAX_STEPSAWAY_FROM_NODE : Nat := 3

/-- `ArticleTextNodeExtractor::MIN_TEXT_LENGTH`. -/
def MIN_TEXT_LENGTH : Nat := 50

/-- `ArticleTextNodeExtractor::MAX_LINK_DENSITY`. -/
def MAX_LINK_DENSITY : ℚ := 1/2

/-- Model of `ArticleTextNodeExtractor::article_body_predicate`: any of
the `ARTICLE_BODY_ATTR` attribute selectors matches. -/
def article_body_predicate (n : HNode) : Bool :=
  ARTICLE_BODY_ATTR.any fun kv => attrIs n kv.1 kv.2

/-- Model of `ArticleTextNodeExtractor::calculate_node_score`: stopword
count plus the first applicable semantic bonus. -/
def calculate_node_score (n : HNode) (stopwordCount : Nat) : Nat :=
  let base_score := stopwordCount
  let b1 : Nat :=
    match attrOf n "itemprop" with
    | some ip => if ip == "articleBody" then 100 else if ip == "articleText" then 40 else 0
    | none => 0
  let b2 : Nat :=
    if b1 = 0 then
      match attrOf n "itemtype" with
      | some it =>
          if sContains it "schema.org/Article" || sContains it "schema.org/NewsArticle" then 30
          else if sContains it "schema.org/BlogPosting" then 20
          else 0
      | none => 0
    else b1
  let b3 : Nat :=
    if b2 = 0 then
      match attrOf n "role" with
      | some r => if r == "article" then (if isNamedElem "article" n then 25 else 15) else 0
      | none => 0
    else b2
  let b4 : Nat :=
    if b3 = 0 then
      if isNamedElem "article" n then 10
      else if isNamedElem "main" n then 8
      else if isNamedElem "section" n then 5
      else if isNamedElem "div" n then 3
      else 0
    else b3
  base_score + b4

/-- Model of `ArticleTextNodeExtractor::calculate_formatting_bonus`. -/
def calculate_formatting_bonus (n : HNode) : ℚ :=
  let bonus : ℚ :=
    (if (findDesc (isNamedElem "strong") n).isEmpty then 0 else 2) +
    (if (findDesc (isNamedElem "em") n).isEmpty then 0 else 3/2) +
    (if (findDesc (isNamedElem "b") n).isEmpty then 0 else 1) +
    (if (findDesc (isNamedElem "i") n).isEmpty then 0 else 1/2)
  let link_count := (findDesc (isNamedElem "a") n).length
  if link_count > 5 then bonus - ((link_count - 5 : Nat) : ℚ) * (1/2) else bonus

/-- Model of `ArticleTextNodeExtractor::is_quality_paragraph`. -/
def is_quality_paragraph (sc : StopCounter) (n : HNode) : Bool :=
  if link_density n > MAX_LINK_DENSITY then false
  else
    match (first_children_text n).bind sc with
    | some stats =>
        decide (stats.stopword_count > MINIMUM_STOPWORD_COUNT) &&
        decide (stats.word_count ≥ MIN_TEXT_LENGTH / 5)
    | none => false

/-- One direction of `ArticleTextNodeExtractor::is_boostable`: walk
adjacent siblings while they are `<p>` elements, at most
`MAX_STEPSAWAY_FROM_NODE` of them, looking for a quality paragraph. -/
def boostSide (sc : StopCounter) (sibs : List HNode) : Bool :=
  ((sibs.takeWhile (isNamedElem "p")).take MAX_STEPSAWAY_FROM_NODE).any
    (is_quality_paragraph sc)

/-- Model of `ArticleTextNodeExtractor::is_boostable`: previous siblings
first, then next siblings. -/
def is_boostable (sc : StopCounter) (e : Entry) : Bool :=
  boostSide sc e.prevSibs || boostSide sc e.nextSibs

/-- The constant `negative_scoring` of `calculate_best_node` (declared
`0.0` and never updated in the source). -/
def negative_scoring : ℚ := 0

/-- The negative boost applied to trailing candidates inside the scoring
loop of `calculate_best_node` (lines 700–711 of `text.rs`): when more
than 15 candidates survive and the position from the end is within the
bottom quarter, the boost is overwritten by `-booster²`, clamped to `5`
when its magnitude plus `negative_scoring` exceeds 40. -/
def negBoost (nodesNumber i : Nat) (boost : ℚ) : ℚ :=
  let bottom_negativescore_nodes : ℚ := max ((nodesNumber : ℚ) * (1/4)) 1
  if nodesNumber > 15 then
    let score : ℚ := ((nodesNumber - i : Nat) : ℚ)
    if score ≤ bottom_negativescore_nodes then
      let booster := bottom_negativescore_nodes - score
      let b := booster ^ 2 * (-1)
      if |b| + negative_scoring > 40 then 5 else b
    else boost
  else boost

/-- Model of the f64→usize cast of the `upscore` computation: truncation
toward zero, saturating at `0` for negative values. -/
def toUsize (q : ℚ) : Nat := if q ≤ 0 then 0 else q.floor.toNat

/-- Insert-or-add on the insertion-ordered association list modelling the
`nodes_scores : HashMap<usize, (usize, usize)>` accumulator: the entry
API adds to an existing key in place and appends new keys. -/
def bump : List (Nat × Nat × Nat) → Nat → Nat → List (Nat × Nat × Nat)
  | [], k, v => [(k, v, 1)]
  | (k0, s, c) :: rest, k, v =>
      if k0 = k then (k0, s + v, c + 1) :: rest
      else (k0, s, c) :: bump rest k v

/-- Model of `ArticleTextNodeExtractor::propagate_score_to_parents`:
parent receives the full score, grandparent 40% (`(score·0.4) as usize`,
which on the exact values produced here is `2·score/5` rounded down). -/
def propagate_score_to_parents (roots : List HNode) (e : Entry) (score : Nat)
    (nodes_scores : List (Nat × Nat × Nat)) : List (Nat × Nat × Nat) :=
  match e.parent with
  | none => nodes_scores
  | some p =>
      let m1 := bump nodes_scores p score
      match ((entries roots).get? p).bind Entry.parent with
      | none => m1
      | some gp => bump m1 gp (2 * score / 5)

/-- The surviving candidates of the scoring path (`txt_nodes` of
`calculate_best_node`): filtered by text length, emptiness, noise text,
link density, and minimum stopword count, each paired with its word
statistics and base score. -/
def txt_nodes (sc : StopCounter) (roots : List HNode) :
    List (Entry × WordsStats × Nat) :=
  ((nodes_to_check roots).filter fun e => !is_noise_node e.node e.ancestors).filterMap
    fun e =>
      let text := textOf e.node
      let text_len := sByteLen text
      if text_len < MIN_TEXT_LENGTH then none
      else if sTrim text == "" || is_noise_text text then none
      else if link_density e.node > MAX_LINK_DENSITY then none
      else
        match sc text with
        | some stats =>
            if stats.stopword_count ≥ MINIMUM_STOPWORD_COUNT then
              some (e, stats, calculate_node_score e.node stats.stopword_count)
            else none
        | none => none

/-- The scoring loop of `calculate_best_node`: iterate the surviving
candidates with their enumeration index, computing the boost (boostable
bonus with the mutable `starting_boost`, then the trailing-candidate
overwrite), the formatting and length bonuses, and propagating the
truncated `upscore` to parent and grandparent. -/
def scoreLoop (sc : StopCounter) (roots : List HNode) (nodesNumber : Nat) :
    Nat → ℚ → List (Entry × WordsStats × Nat) → List (Nat × Nat × Nat) →
    List (Nat × Nat × Nat)
  | _, _, [], m => m
  | i, starting_boost, (e, stats, base_score) :: rest, m =>
      let bb := is_boostable sc e
      let boost0 : ℚ := if bb then (1 / starting_boost) * 50 else 0
      let sb1 : ℚ := if bb then starting_boost + 1 else starting_boost
      let boost_score := negBoost nodesNumber i boost0
      let formatting_bonus := calculate_formatting_bonus e.node
      let length_bonus : ℚ := min ((stats.word_count : ℚ) / 100) 5
      let upscore := toUsize ((base_score : ℚ) + boost_score + formatting_bonus + length_bonus)
      scoreLoop sc roots nodesNumber (i + 1) sb1 rest
        (propagate_score_to_parents roots e upscore m)

/-- The full `nodes_scores` accumulator of `calculate_best_node` for a
document, in key-insertion order. -/
def nodes_scores (sc : StopCounter) (roots : List HNode) : List (Nat × Nat × Nat) :=
  scoreLoop sc roots (txt_nodes sc roots).length 0 1 (txt_nodes sc roots) []

/-- Model of `.iter().max_by_key(|(_, (score, _))| score)` over the
accumulator followed by `.unwrap_or((0, 0))`: of several equally maximal
entries, Rust's `max_by_key` keeps the LAST in iteration order.  The
real accumulator is a `HashMap` whose iteration order is arbitrary; the
model fixes key-insertion order. -/
def maxByScoreLast : List (Nat × Nat × Nat) → Nat × Nat
  | [] => (0, 0)
  | [(k, s, _)] => (k, s)
  | (k, s, _) :: x :: rest =>
      let b := maxByScoreLast (x :: rest)
      if b.2 ≥ s then b else (k, s)

/-- Model of `ArticleTextNodeExtractor::calculate_confidence`. -/
def calculate_confidence (score : Nat) (total_nodes : Nat) : ℚ :=
  if total_nodes = 0 then 0
  else max (min ((score : ℚ) / ((total_nodes * 10 : Nat) : ℚ)) 1) 0

/-- An `ArticleTextNode`: the selected node (as its entry in the flat
node vector) with a confidence score. -/
structure ArticleTextNode where
  entry : Entry
  confidence_score : ℚ

/-- Model of `ArticleTextNodeExtractor::calculate_best_node`.  The final
`Node::new(doc, best_index).unwrap()` panics when the index is out of
range (possible only for an empty document); the model returns `none`
there. -/
def calculate_best_node (sc : StopCounter) (roots : List HNode) :
    Option ArticleTextNode :=
  match (entries roots).find? fun e => attrIs e.node "itemprop" "articleBody" with
  | some articleNodeE => some ⟨articleNodeE, 19/20⟩
  | none =>
      let txt := txt_nodes sc roots
      let nodes_number := txt.length
      let scores := scoreLoop sc roots nodes_number 0 1 txt []
      let best := maxByScoreLast scores
      let confidence := calculate_confidence best.2 nodes_number
      match (entries roots).get? best.1 with
      | some e => some ⟨e, confidence⟩
      | none => none

/-- Whether the entry is matched by
`Name("body").descendant(article_body_predicate())`: a strict descendant
of a `<body>` element matching one of the `ARTICLE_BODY_ATTR`
selectors. -/
def bodyDescendantMatch (e : Entry) : Bool :=
  e.ancestors.any (isNamedElem "body") && article_body_predicate e.node

/-- Model of `extract_node::article_node`: if exactly one node under
`<body>` matches the `ARTICLE_BODY_ATTR` selectors it is returned with
confidence `1.0`; otherwise the scorer decides. -/
def article_node (sc : StopCounter) (roots : List HNode) : Option ArticleTextNode :=
  match (entries roots).filter bodyDescendantMatch with
  | [e] => some ⟨e, 1⟩
  | _ => calculate_best_node sc roots

/-! ## `extract_meta.rs`: the shared `<meta>` reader -/

/-- Whether the entry lies strictly inside a `<head>` element. -/
def hasHeadAncestor (e : Entry) : Bool := e.ancestors.any (isNamedElem "head")

/-- Model of `extract_meta::meta_content`: the first `<meta>` element that
is a descendant of `<head>`, matches the attribute selector and has a
nonempty trimmed `content`. -/
def meta_content (roots : List HNode) (k v : String) : Option String :=
  (((entries roots).filter fun e =>
      hasHeadAncestor e && isNamedElem "meta" e.node && attrIs e.node k v).filterMap
    fun e => ((attrOf e.node "content").map sTrim).filter fun s => s ≠ "").head?

/-! ## `extract_urls.rs`: `all_urls` -/

/-- The trimmed `href` of every `<a>` element that has one, in document
order, duplicates included. -/
def aHrefs (roots : List HNode) : List String :=
  (entries roots).filterMap fun e =>
    if isNamedElem "a" e.node then (attrOf e.node "href").map sTrim else none

/-- The uniqueness filter of `all_urls` (`uniques.insert(*href)`): keep a
trimmed href only when not seen before. -/
def allUrlsGo : List Entry → List String → List String
  | [], _ => []
  | e :: rest, seen =>
      match if isNamedElem "a" e.node then (attrOf e.node "href").map sTrim else none with
      | some t =>
          if seen.contains t then allUrlsGo rest seen
          else t :: allUrlsGo rest (t :: seen)
      | none => allUrlsGo rest seen

/-- Model of `extract_urls::all_urls`. -/
def all_urls (roots : List HNode) : List String :=
  allUrlsGo (entries roots) []

/-- Reference form of first-seen deduplication: keep each string's first
occurrence, drop all later duplicates. -/
def dedupKeepFirst : List String → List String
  | [] => []
  | x :: xs => x :: dedupKeepFirst (xs.filter fun y => y ≠ x)
  termination_by l => l.length
  decreasing_by
    exact Nat.lt_succ_of_le (List.length_filter_le _ _)

/-! ## `extract_canonical.rs`, `extract_thumbnail.rs`, `extract_top_img.rs`,
`extract_meta_language.rs`

URL parsing (the `url` crate) and `Language::from_str` are external
collaborators; they enter as function parameters. -/

/-- Model of `extract_canonical::canonical_link`: first
`<link rel="canonical">` href, else the `og:url` meta content, parsed. -/
def canonical_link {α : Type} (parse : String → Option α) (roots : List HNode) :
    Option α :=
  match (((entries roots).filter fun e =>
      isNamedElem "link" e.node && attrIs e.node "rel" "canonical").filterMap
        fun e => attrOf e.node "href").head? with
  | some link => parse link
  | none =>
      match meta_content roots "property" "og:url" with
      | some meta => parse meta
      | none => none

/-- Model of `extract_thumbnail::meta_thumbnail_url`. -/
def meta_thumbnail_url {α : Type} (parse : String → Option α) (roots : List HNode) :
    Option α :=
  ([("name", "thumbnail"), ("name", "thumbnailUrl")].filterMap
    fun kv => (meta_content roots kv.1 kv.2).bind parse).head?

/-- Model of `extract_top_img::meta_img_url`: the `og:image` meta if it
parses, else the first `<link rel="img_src"|"image_src"|"icon">` href
that parses. -/
def meta_img_url {α : Type} (parse : String → Option α) (roots : List HNode) :
    Option α :=
  let linkFallback : Option α :=
    (((entries roots).filter fun e =>
        isNamedElem "link" e.node &&
        (attrIs e.node "rel" "img_src" || attrIs e.node "rel" "image_src" ||
         attrIs e.node "rel" "icon")).filterMap
      fun e => (attrOf e.node "href").bind parse).head?
  match meta_content roots "property" "og:image" with
  | some meta =>
      match parse meta with
      | some u => some u
      | none => linkFallback
  | none => linkFallback

/-- Third stage of `extract_meta_language::meta_language`: the
`<meta name="lang">` fallback. -/
def metaLanguageStep3 {α : Type} (fromStr : String → Except α α)
    (roots : List HNode) (unknownLang : Option α) : Option α :=
  match meta_content roots "name" "lang" with
  | some m =>
      match fromStr m with
      | .ok l => some l
      | .error l => some l
  | none => unknownLang

/-- Second stage of `extract_meta_language::meta_language`: the
`<meta http-equiv="Content-Language">` fallback. -/
def metaLanguageStep2 {α : Type} (fromStr : String → Except α α)
    (roots : List HNode) (unknownLang : Option α) : Option α :=
  match meta_content roots "http-equiv" "Content-Language" with
  | some m =>
      match fromStr m with
      | .ok l => some l
      | .error l => metaLanguageStep3 fromStr roots (some l)
  | none => metaLanguageStep3 fromStr roots unknownLang

/-- Model of `extract_meta_language::meta_language`: `<html lang>` first,
then the meta fallbacks; unparseable values are remembered and returned
only if nothing better appears. -/
def meta_language {α : Type} (fromStr : String → Except α α)
    (roots : List HNode) : Option α :=
  match ((entries roots).find? fun e => isNamedElem "html" e.node).bind
      (fun e => attrOf e.node "lang") with
  | some la =>
      match fromStr la with
      | .ok l => some l
      | .error l => metaLanguageStep2 fromStr roots (some l)
  | none => metaLanguageStep2 fromStr roots none

/-! ## `extract_authors.rs` and `text.rs`'s `author_text` -/

/-- `AUTHOR_ATTRS` of `extract_authors.rs`. -/
def AUTHOR_ATTRS : List String := ["name", "rel", "itemprop", "class", "id", "property"]

/-- `AUTHOR_VALS` of `extract_authors.rs` (the source list contains
`"article-author"` twice). -/
def AUTHOR_VALS : List String :=
  ["author", "byline", "dc.creator", "byl", "article:author", "article:author_name",
   "story-byline", "article-author", "parsely-author", "sailthru.author",
   "citation_author", "article-author"]

/-- `AUTHOR_STOP_WORDS` of `extract_authors.rs` (the source list contains
`"Opinion Writer"` twice). -/
def AUTHOR_STOP_WORDS : List String :=
  ["By", "Reuters", "IANS", "AP", "AFP", "PTI", "ANI", "DPA", "Senior Reporter",
   "Reporter", "Writer", "Opinion Writer", "Opinion Writer"]

/-- The hidden-class selector of `author_text`
(`Class("hidden").or(Class("sr-only")).or(Class("visually-hidden"))`). -/
def hiddenCls (n : HNode) : Bool :=
  hasClassToken "hidden" n || hasClassToken "sr-only" n || hasClassToken "visually-hidden" n

mutual

/-- One descendant of `text.rs`'s `author_text` walk: a hidden or noise
element subtree is skipped wholesale; a text node contributes its text
(with a trailing space) unless it is noise text. -/
def authorTextNode (anc : List HNode) : HNode → String
  | .text s => if !is_noise_text s then s ++ " " else ""
  | .elem t a cs =>
      if hiddenCls (HNode.elem t a cs) || is_noise_node (HNode.elem t a cs) anc then ""
      else authorTextGo ((HNode.elem t a cs) :: anc) cs
  termination_by structural n => n

/-- Descendant walk of `text.rs`'s `author_text` over a sibling list. -/
def authorTextGo (anc : List HNode) : List HNode → String
  | [] => ""
  | n :: rest => authorTextNode anc n ++ authorTextGo anc rest
  termination_by structural l => l

end

/-- Model of `text.rs`'s `author_text`: for `<meta>` the `content`
attribute, otherwise the cleaned descendant text. -/
def author_text (e : Entry) : String :=
  if isNamedElem "meta" e.node then
    (attrOf e.node "content").getD ""
  else
    sTrim (authorTextGo (e.node :: e.ancestors) (childrenOf e.node))

/-- Scanner for the tail of an HTML tag after `<`: at least one
non-`>` character followed by `>`; returns the remainder. -/
def tagTail : List Char → Option (List Char)
  | [] => none
  | c :: cs => if c == '>' then some cs else tagTail cs

/-- One step of the `<[^>]+>` match: fails on `<>`. -/
def findTagEnd : List Char → Option (List Char)
  | [] => none
  | c :: cs => if c == '>' then none else tagTail cs

/-- Remove every `<[^>]+>` match left-to-right (the tag-stripping regex
of `clean_author`). -/
def stripTagsAux : Nat → List Char → List Char
  | 0, cs => cs
  | _ + 1, [] => []
  | fuel + 1, c :: cs =>
      if c == '<' then
        match findTagEnd cs with
        | some rest => stripTagsAux fuel rest
        | none => c :: stripTagsAux fuel cs
      else c :: stripTagsAux fuel cs

/-- Model of the `Regex::new("<[^>]+>").replace_all(s, "")` call. -/
def stripTags (s : String) : String := ⟨stripTagsAux s.data.length s.data⟩

/-- Model of `extract_authors::clean_author`: trim, remove each stop word
(in list order) as a substring, strip HTML tags, trim punctuation and
whitespace. -/
def clean_author (s : String) : String :=
  let out := AUTHOR_STOP_WORDS.foldl (fun acc stop => sReplace acc stop "") (sTrim s)
  let out2 := stripTags out
  ⟨trimBy (fun c => c == '.' || c == ',' || c == '-' || c == '/' || isWs c) out2.data⟩

/-- Model of `extract_authors::contains_digits`. -/
def contains_digits (s : String) : Bool := s.data.any Char.isDigit

/-- Model of `extract_authors::is_valid_name`: 2–4 whitespace-separated
words, no digits, no angle brackets. -/
def is_valid_name (s : String) : Bool :=
  let word_count := (splitWs s).length
  decide (word_count > 1) && decide (word_count < 5) && !contains_digits s &&
  !sContainsChar s '<' && !sContainsChar s '>'

/-- Join words with single spaces (`words[..2].join(" ")`). -/
def joinSpace : List String → String
  | [] => ""
  | [w] => w
  | w :: ws => w ++ " " ++ joinSpace ws

/-- Model of `extract_authors::parse_byline`: normalise whitespace
characters to spaces, split on the byline separators, keep valid names
(truncated to their first two words when longer) and clean each. -/
def parse_byline (s : String) : List String :=
  let s1 : String :=
    ⟨s.data.map fun c =>
      if c == '\n' || c == '\t' || c == '\r' || c == '\u00A0' then ' ' else c⟩
  (sSplitBy (fun c => c == '·' || c == ',' || c == '|' || c == '/' || c == '\u00A0') s1).filterMap
    fun token =>
      let t := sTrim token
      if is_valid_name t then
        let ws := splitWs t
        let name := if ws.length > 2 then joinSpace (ws.take 2) else t
        some (clean_author name)
      else none

/-- The raw author strings contributed by one node of the document
(the attribute scan of `extract_authors::authors`). -/
def nodeAuthors (e : Entry) : List String :=
  match e.node with
  | .text _ => []
  | .elem tag attrs _ =>
      let tagName := lowerStr tag
      if tagName == "script" || tagName == "style" || tagName == "time" then []
      else
        attrs.foldr
          (fun av acc =>
            let attrNameStr := lowerStr av.1
            let attrValueStr := lowerStr av.2
            (AUTHOR_ATTRS.foldr
              (fun authorAttr acc2 =>
                if attrNameStr == authorAttr then
                  (AUTHOR_VALS.foldr
                    (fun authorVal acc3 =>
                      if attrValueStr == authorVal || sContains attrValueStr authorVal then
                        let content0 : String :=
                          if tagName == "meta" then
                            ((attrs.find? fun p => lowerStr p.1 == "content").map
                              Prod.snd).getD ""
                          else ""
                        let content := if content0 == "" then author_text e else content0
                        ((parse_byline content).filter fun name => name ≠ "") ++ acc3
                      else acc3)
                    []) ++ acc2
                else acc2)
              []) ++ acc)
          []

/-- All raw author strings of the document, in scan order. -/
def rawAuthors (roots : List HNode) : List String :=
  (entries roots).foldr (fun e acc => nodeAuthors e ++ acc) []

/-- The deduplication pass of `extract_authors::authors`: re-clean, check
validity and drop case-insensitive duplicates. -/
def dedupAuthors : List String → List String → List String
  | [], _ => []
  | x :: xs, seen =>
      let a := clean_author x
      let key := lowerStr a
      if is_valid_name a && a ≠ "" && !seen.contains key then
        a :: dedupAuthors xs (key :: seen)
      else dedupAuthors xs seen

/-- The comparator of the final author sort
(`sort_by(|a, b| a.to_lowercase().cmp(&b.to_lowercase()))`). -/
def authorsLe (a b : String) : Bool := decide (lowerStr a ≤ lowerStr b)

/-- Model of `extract_authors::authors`. -/
def authors (roots : List HNode) : List String :=
  (dedupAuthors (rawAuthors roots) []).mergeSort authorsLe

/-! ## `extract_title.rs` -/

/-- `TITLE_META_INFO` of `extract_title.rs`. -/
def TITLE_META_INFO : List String :=
  ["dc.title", "og:title", "headline", "articletitle", "article-title",
   "parsely-title", "title", "twitter:title"]

/-- Model of `extract_title::postprocess_title`: drop `&#65533;`, turn
`&raquo;` into `»`, trim. -/
def postprocess_title (title : String) : String :=
  sTrim (sReplace (sReplace title "&#65533;" "") "&raquo;" "»")

/-- Step 1 of `extract_title::title`: the first meta key that yields a
nonempty trimmed content, `property` tried before `name` within each
key. -/
def titleMetaLoop (roots : List HNode) : List String → Option String
  | [] => none
  | k :: ks =>
      let viaProp : Option String :=
        match meta_content roots "property" k with
        | some meta => let t := sTrim meta; if t ≠ "" then some (postprocess_title t) else none
        | none => none
      match viaProp with
      | some r => some r
      | none =>
          match meta_content roots "name" k with
          | some meta =>
              let t := sTrim meta
              if t ≠ "" then some (postprocess_title t) else titleMetaLoop roots ks
          | none => titleMetaLoop roots ks

/-- The `<h1>` texts of the document as collected by `extract_title`
(note the source calls `as_text()` on the `<h1>` element itself). -/
def h1List (roots : List HNode) : List String :=
  (entries roots).filterMap fun e =>
    if isNamedElem "h1" e.node then (asText e.node).map sTrim else none

/-- The longest collected `<h1>` text (stable sort by byte length, last
element). -/
def longestH1 (l : List String) : String :=
  ((l.mergeSort fun a b => decide (sByteLen a ≤ sByteLen b)).getLast?).getD ""

/-- The `<title>` tag text as collected by `extract_title` (again via
`as_text()` on the element node). -/
def titleTagText (roots : List HNode) : Option String :=
  ((entries roots).find? fun e => isNamedElem "title" e.node).bind
    fun e => (asText e.node).map sTrim

/-- The meta fallback of step 4 of `extract_title::title` (first key whose
`property` or `name` meta yields anything). -/
def titleFbLoop (roots : List HNode) : List String → String
  | [] => ""
  | k :: ks =>
      match meta_content roots "property" k with
      | some meta => sTrim meta
      | none =>
          match meta_content roots "name" k with
          | some meta => sTrim meta
          | none => titleFbLoop roots ks

/-- The comparison filter of `extract_title::title`: alphanumeric
characters only, lower-cased. -/
def filterAln (s : String) : String := lowerStr ⟨s.data.filter Char.isAlphanum⟩

/-- The piece-selection loop of the delimiter splitting in
`extract_title::title`: the first piece whose filtered text contains the
filtered `<h1>` hint, else the longest piece. -/
def pickPiece (hint : String) : List String → Nat → Nat → Nat → Nat
  | [], _, _, best => best
  | p :: ps, i, bestLen, best =>
      let current := sTrim p
      if hint ≠ "" && sContains (filterAln current) hint then i
      else if sByteLen current > bestLen then pickPiece hint ps (i + 1) (sByteLen current) i
      else pickPiece hint ps (i + 1) bestLen best

/-- Split a character list on every (left-to-right, non-overlapping)
occurrence of `pat`, keeping empty pieces, modelling `str::split(&str)`. -/
def splitSubAux (pat : List Char) : Nat → List Char → List Char → List (List Char)
  | 0, cs, acc => [acc.reverse ++ cs]
  | _ + 1, [], acc => [acc.reverse]
  | fuel + 1, c :: cs, acc =>
      if pat ≠ [] && isPrefixCB pat (c :: cs) then
        acc.reverse :: splitSubAux pat fuel ((c :: cs).drop pat.length) []
      else splitSubAux pat fuel cs (c :: acc)

/-- Model of `str::split(&str)`. -/
def sSplitOnSub (s pat : String) : List String :=
  (splitSubAux pat.data s.data.length s.data []).map fun cs => ⟨cs⟩

/-- Split `s` on the first delimiter of the list it contains and select a
piece (`extract_title::title`, delimiter splitting). -/
def delimLoop (titleText hint : String) : List String → String
  | [] => ""
  | d :: ds =>
      if sContains titleText d then
        let pieces := sSplitOnSub titleText d
        sTrim (pieces.getD (pickPiece hint pieces 0 0 0) "")
      else delimLoop titleText hint ds

/-- Model of `extract_title::title`. -/
def title (roots : List HNode) : Option String :=
  match titleMetaLoop roots TITLE_META_INFO with
  | some r => some r
  | none =>
      let h1s := h1List roots
      let viaH1 : Option String :=
        if h1s ≠ [] then
          let longest := longestH1 h1s
          if (splitWs longest).length > 2 then
            some (postprocess_title (joinSpace ((splitWs longest).filter fun x => x ≠ "")))
          else none
        else none
      match viaH1 with
      | some r => some r
      | none =>
          let viaTitleTag : Option String :=
            match titleTagText roots with
            | some tt => let t := sTrim tt; if t ≠ "" then some (postprocess_title t) else none
            | none => none
          match viaTitleTag with
          | some r => some r
          | none =>
              let title_text_h1 := if h1s ≠ [] then longestH1 h1s else ""
              let title_text := (titleTagText roots).getD ""
              let title_text_fb := titleFbLoop roots TITLE_META_INFO
              let fh1 := filterAln title_text_h1
              let ft := filterAln title_text
              let ffb := filterAln title_text_fb
              let candidate0 : String :=
                if title_text_h1 ≠ "" && title_text_h1 == title_text then title_text_h1
                else if fh1 ≠ "" && fh1 == ffb then title_text_h1
                else if fh1 ≠ "" && sContains ft fh1 && ffb ≠ "" && sContains ft ffb &&
                        sByteLen title_text_h1 > sByteLen title_text_fb then title_text_h1
                else if ffb ≠ "" && ffb ≠ ft && sStartsWith ft ffb then title_text_fb
                else ""
              let candidate1 :=
                if candidate0 == "" && title_text ≠ "" then
                  delimLoop title_text fh1 ["|", "-", "_", "/", " » "]
                else candidate0
              let candidate2 :=
                if title_text_h1 ≠ "" && fh1 == filterAln candidate1 then title_text_h1
                else candidate1
              if candidate2 ≠ "" then some (postprocess_title candidate2) else none

/-! ## A concrete language instance and fixture documents -/

/-- Modelled from the spec: a concrete stopword table for English (the
per-language tables are an external static data supplier, §1/§4.2); any
table instantiates the engine the same way. -/
def engStops : List String :=
  ["the", "a", "an", "of", "to", "and", "in", "is", "it", "for", "on", "that",
   "was", "with", "he", "as", "at", "by", "be", "over"]

/-- The stopword counter used by all concrete fixtures. -/
def engCounter : StopCounter := stopwordCountWith engStops

/-- A parsed document whose DOM contains no `<body>` element. -/
def docNoBody : List HNode :=
  [.elem "html" [] [.elem "head" [] []]]

/-- A paragraph-sized English text: 61 bytes, 16 words, 9 of them in
`engStops`. -/
def tieText : String := "the cat sat on the mat and the dog ran to the park in the sun"

/-- A document with two identical `<td>` candidates in separate parent
`<div>`s: both parents accumulate the same score. -/
def docTie : List HNode :=
  [.elem "html" []
    [.elem "body" []
      [.elem "div" [] [.elem "td" [] [.text tieText]],
       .elem "div" [] [.elem "td" [] [.text tieText]]]]]

/-- Link text longer than the article text of `docLinkHeavy`. -/
def linkHeavyAnchorText : String :=
  "link link link link link link link link link link link link link link link link link link link link"

/-- The candidate `<div class="story">` of `docLinkHeavy`: one good
paragraph plus an anchor carrying more text than the paragraph. -/
def linkHeavyDiv : HNode :=
  .elem "div" [("class", "story")]
    [.elem "p" [] [.text tieText],
     .elem "a" [("href", "u")] [.text linkHeavyAnchorText]]

/-- A document whose only scored candidate is a `<p>` inside a
link-dominated candidate `<div class="story">`. -/
def docLinkHeavy : List HNode :=
  [.elem "html" [] [.elem "body" [] [linkHeavyDiv]]]

/-- A document whose only `itemprop="articleBody"` node is a `<meta>`
inside `<head>`, while `<body>` contains a single
`<div class="content">`. -/
def docHeadItemprop : List HNode :=
  [.elem "html" []
    [.elem "head" [] [.elem "meta" [("itemprop", "articleBody")] []],
     .elem "body" [] [.elem "div" [("class", "content")] []]]]

/-- A document with an `itemprop="articleBody"` `<div>` inside `<body>`. -/
def docBodyItemprop : List HNode :=
  [.elem "html" []
    [.elem "body" [] [.elem "div" [("itemprop", "articleBody")] []]]]

/-- The author fixture of the spec: a single author `<meta>` naming the
same person twice plus an agency. -/
def docAuthorsMeta : List HNode :=
  [.elem "html" []
    [.elem "head" []
      [.elem "meta" [("name", "author"), ("content", "By Jane Doe, JANE DOE, Reuters")] []],
     .elem "body" [] []]]

/-- The title fixture: `<title>Hello | Site</title>` in `<head>`, no
title metas, no `<h1>`. -/
def docTitleOnly : List HNode :=
  [.elem "html" []
    [.elem "head" [] [.elem "title" [] [.text "Hello | Site"]],
     .elem "body" [] []]]

/-- A document with an `og:url` meta inside `<head>`. -/
def docMetaHead : List HNode :=
  [.elem "html" []
    [.elem "head" [] [.elem "meta" [("property", "og:url"), ("content", " https://x/final ")] []],
     .elem "body" [] []]]

/-- A document whose only `og:url` meta sits inside `<body>`. -/
def docMetaOutsideHead : List HNode :=
  [.elem "html" []
    [.elem "head" [] [],
     .elem "body" [] [.elem "meta" [("property", "og:url"), ("content", "https://x/final")] []]]]

/-- A document with duplicate and distinct `<a href>` links. -/
def docUrls : List HNode :=
  [.elem "html" []
    [.elem "body" []
      [.elem "a" [("href", " u1 ")] [.text "one"],
       .elem "a" [("href", "u2")] [.text "two"],
       .elem "a" [("href", "u1")] [.text "one again"],
       .elem "a" [] [.text "no href"]]]]

/-! ## Infrastructure for the verification -/

/-- Key-membership in the score accumulator. -/
def keyIn (m : List (Nat × Nat × Nat)) (k : Nat) : Prop := ∃ p ∈ m, p.1 = k

/-- The uniqueness-filter recursion of `all_urls` on the extracted href
list. -/
def dedupSeen : List String → List String → List String
  | [], _ => []
  | x :: xs, seen =>
      if seen.contains x then dedupSeen xs seen
      else x :: dedupSeen xs (x :: seen)

/-- A placeholder candidate tuple (used only as the default of `headD`
in witnesses). -/
def dfltCandidate : Entry × WordsStats × Nat :=
  (⟨HNode.text "", 0, none, [], [], []⟩, ⟨0, 0, 0⟩, 0)

/-! ## Structural lemmas about the embedding -/

theorem hsize_pos' (n : HNode) : 1 ≤ hsize n := by
  cases n <;> simp [hsize]

mutual

theorem flat1_length (n : HNode) (anc : List HNode) (p : Option Nat) (i : Nat)
    (ps ns : List HNode) : (flat1 anc p i ps ns n).length = hsize n := by
  cases n with
  | text s => simp [flat1, hsize]
  | elem t a cs =>
      simp [flat1, hsize, flatL_length cs]
      omega

theorem flatL_length (cs : List HNode) (anc : List HNode) (p : Option Nat) (i : Nat)
    (ps : List HNode) : (flatL anc p i ps cs).length = hsizeL cs := by
  cases cs with
  | nil => simp [flatL, hsizeL]
  | cons c cs' =>
      simp [flatL, hsizeL, flat1_length c, flatL_length cs']

end

mutual

theorem flat1_parent (n : HNode) : ∀ (anc : List HNode) (p : Option Nat) (i : Nat)
    (ps ns : List HNode) (e : Entry), e ∈ flat1 anc p i ps ns n →
    e.parent = p ∨ ∃ q, e.parent = some q ∧ i ≤ q ∧ q < i + hsize n := by
  intro anc p i ps ns e he
  cases n with
  | text s =>
      simp [flat1] at he
      subst he
      exact Or.inl rfl
  | elem t a cs =>
      simp only [flat1, List.mem_cons] at he
      rcases he with he | he
      · subst he
        exact Or.inl rfl
      · rcases flatL_parent cs ((HNode.elem t a cs) :: anc) (some i) (i + 1) [] e he with h | ⟨q, hq, h1, h2⟩
        · refine Or.inr ⟨i, h, le_refl i, ?_⟩
          have := hsize_pos' (HNode.elem t a cs)
          omega
        · refine Or.inr ⟨q, hq, by omega, ?_⟩
          simp [hsize]
          omega

theorem flatL_parent (cs : List HNode) : ∀ (anc : List HNode) (p : Option Nat) (i : Nat)
    (ps : List HNode) (e : Entry), e ∈ flatL anc p i ps cs →
    e.parent = p ∨ ∃ q, e.parent = some q ∧ i ≤ q ∧ q < i + hsizeL cs := by
  intro anc p i ps e he
  cases cs with
  | nil => simp [flatL] at he
  | cons c cs' =>
      simp only [flatL, List.mem_append] at he
      rcases he with he | he
      · rcases flat1_parent c anc p i ps cs' e he with h | ⟨q, hq, h1, h2⟩
        · exact Or.inl h
        · refine Or.inr ⟨q, hq, h1, ?_⟩
          simp [hsizeL]
          omega
      · rcases flatL_parent cs' anc p (i + hsize c) (c :: ps) e he with h | ⟨q, hq, h1, h2⟩
        · exact Or.inl h
        · refine Or.inr ⟨q, hq, by omega, ?_⟩
          simp [hsizeL]
          omega

end

theorem entries_length (roots : List HNode) : (entries roots).length = hsizeL roots :=
  flatL_length roots [] none 0 []

theorem entries_parent_lt (roots : List HNode) (e : Entry) (he : e ∈ entries roots)
    (q : Nat) (hq : e.parent = some q) : q < (entries roots).length := by
  rcases flatL_parent roots [] none 0 [] e he with h | ⟨q', hq', _, h2⟩
  · rw [hq] at h; cases h
  · rw [hq'] at hq
    cases hq
    rw [entries_length]
    simpa using h2

theorem bump_keys (m : List (Nat × Nat × Nat)) (k v : Nat) (k' : Nat)
    (h : keyIn (bump m k v) k') : keyIn m k' ∨ k' = k := by
  induction m with
  | nil =>
      obtain ⟨p, hp, hk⟩ := h
      simp [bump] at hp
      subst hp
      exact Or.inr hk.symm
  | cons x xs ih =>
      obtain ⟨k0, s, c⟩ := x
      obtain ⟨p, hp, hk⟩ := h
      by_cases hx : k0 = k
      · simp only [bump, if_pos hx, List.mem_cons] at hp
        rcases hp with hp | hp
        · subst hp
          have hk0 : k0 = k' := hk
          exact Or.inr (hk0.symm.trans hx)
        · exact Or.inl ⟨p, List.mem_cons_of_mem _ hp, hk⟩
      · simp only [bump, if_neg hx, List.mem_cons] at hp
        rcases hp with hp | hp
        · subst hp
          exact Or.inl ⟨(k0, s, c), List.mem_cons_self _ _, hk⟩
        · rcases ih ⟨p, hp, hk⟩ with h2 | h2
          · obtain ⟨p2, hp2, hk2⟩ := h2
            exact Or.inl ⟨p2, List.mem_cons_of_mem _ hp2, hk2⟩
          · exact Or.inr h2

theorem propagate_keys (roots : List HNode) (e : Entry) (he : e ∈ entries roots)
    (s : Nat) (m : List (Nat × Nat × Nat)) (k : Nat)
    (h : keyIn (propagate_score_to_parents roots e s m) k) :
    keyIn m k ∨ k < (entries roots).length := by
  unfold propagate_score_to_parents at h
  cases hp : e.parent with
  | none =>
      rw [hp] at h
      exact Or.inl h
  | some p =>
      rw [hp] at h
      dsimp only at h
      have hpl : p < (entries roots).length := entries_parent_lt roots e he p hp
      cases hg : ((entries roots).get? p).bind Entry.parent with
      | none =>
          rw [hg] at h
          rcases bump_keys m p s k h with h2 | h2
          · exact Or.inl h2
          · subst h2; exact Or.inr hpl
      | some gp =>
          rw [hg] at h
          rcases bump_keys _ gp (2 * s / 5) k h with h2 | h2
          · rcases bump_keys m p s k h2 with h3 | h3
            · exact Or.inl h3
            · subst h3; exact Or.inr hpl
          · right
            obtain ⟨pe, hpe⟩ := Option.bind_eq_some.mp hg
            have hmem : pe ∈ entries roots := List.get?_mem hpe.1
            have := entries_parent_lt roots pe hmem gp hpe.2
            omega

theorem scoreLoop_keys (sc : StopCounter) (roots : List HNode) (N : Nat) :
    ∀ (l : List (Entry × WordsStats × Nat)) (i : Nat) (sb : ℚ)
      (m : List (Nat × Nat × Nat)),
      (∀ t ∈ l, t.1 ∈ entries roots) →
      (∀ k, keyIn m k → k < (entries roots).length) →
      ∀ k, keyIn (scoreLoop sc roots N i sb l m) k → k < (entries roots).length := by
  intro l
  induction l with
  | nil =>
      intro i sb m _ hm k hk
      exact hm k hk
  | cons t rest ih =>
      intro i sb m hl hm k hk
      obtain ⟨e, stats, base⟩ := t
      simp only [scoreLoop] at hk
      refine ih _ _ _ (fun t ht => hl t (List.mem_cons_of_mem _ ht)) ?_ k hk
      intro k2 hk2
      rcases propagate_keys roots e (hl _ (List.mem_cons_self _ _)) _ m k2 hk2 with h | h
      · exact hm k2 h
      · exact h

theorem maxByScoreLast_mem (m : List (Nat × Nat × Nat)) (hm : m ≠ []) :
    ∃ c, ((maxByScoreLast m).1, (maxByScoreLast m).2, c) ∈ m := by
  induction m with
  | nil => exact absurd rfl hm
  | cons x xs ih =>
      obtain ⟨k, s, c⟩ := x
      cases xs with
      | nil =>
          refine ⟨c, ?_⟩
          simp [maxByScoreLast]
      | cons y ys =>
          simp only [maxByScoreLast]
          by_cases hb : (maxByScoreLast (y :: ys)).2 ≥ s
          · simp only [if_pos hb]
            obtain ⟨c2, hc2⟩ := ih (by simp)
            exact ⟨c2, List.mem_cons_of_mem _ hc2⟩
          · simp only [if_neg hb]
            exact ⟨c, List.mem_cons_self _ _⟩


theorem txt_nodes_mem (sc : StopCounter) (roots : List HNode)
    (t : Entry × WordsStats × Nat) (ht : t ∈ txt_nodes sc roots) :
    t.1 ∈ entries roots ∧ ¬ link_density t.1.node > MAX_LINK_DENSITY := by
  unfold txt_nodes at ht
  obtain ⟨e, he, hf⟩ := List.mem_filterMap.mp ht
  have he2 : e ∈ entries roots := by
    have := List.mem_filter.mp (List.mem_filter.mp he).1
    exact (List.mem_filter.mp (List.mem_filter.mp he).1).1
  -- peel the if-chain of the filterMap body
  by_cases h1 : sByteLen (textOf e.node) < MIN_TEXT_LENGTH
  · rw [if_pos h1] at hf; cases hf
  rw [if_neg h1] at hf
  by_cases h2 : (sTrim (textOf e.node) == "" || is_noise_text (textOf e.node)) = true
  · rw [if_pos h2] at hf; cases hf
  rw [if_neg h2] at hf
  by_cases h3 : link_density e.node > MAX_LINK_DENSITY
  · rw [if_pos h3] at hf; cases hf
  rw [if_neg h3] at hf
  cases hsc : sc (textOf e.node) with
  | none => rw [hsc] at hf; cases hf
  | some stats =>
      rw [hsc] at hf
      dsimp only at hf
      by_cases h4 : stats.stopword_count ≥ MINIMUM_STOPWORD_COUNT
      · rw [if_pos h4] at hf
        cases hf
        exact ⟨he2, h3⟩
      · rw [if_neg h4] at hf; cases hf

theorem entries_nonempty (roots : List HNode) (h : roots ≠ []) :
    0 < (entries roots).length := by
  rw [entries_length]
  cases roots with
  | nil => exact absurd rfl h
  | cons c cs =>
      have := hsize_pos' c
      simp [hsizeL]
      omega

theorem calculate_best_node_isSome (sc : StopCounter) (roots : List HNode)
    (h : 0 < (entries roots).length) : (calculate_best_node sc roots).isSome := by
  unfold calculate_best_node
  cases hfind : (entries roots).find? (fun e => attrIs e.node "itemprop" "articleBody") with
  | some e => simp
  | none =>
      dsimp only
      have hbest : (maxByScoreLast (scoreLoop sc roots (txt_nodes sc roots).length 0 1
          (txt_nodes sc roots) [])).1 < (entries roots).length := by
        rcases eq_or_ne (scoreLoop sc roots (txt_nodes sc roots).length 0 1
            (txt_nodes sc roots) []) [] with hs | hne
        · rw [hs]
          simpa [maxByScoreLast] using h
        · obtain ⟨c, hc⟩ := maxByScoreLast_mem _ hne
          refine scoreLoop_keys sc roots (txt_nodes sc roots).length (txt_nodes sc roots)
            0 1 [] (fun t ht => (txt_nodes_mem sc roots t ht).1) ?_ _ ⟨_, hc, rfl⟩
          intro k hk
          obtain ⟨p, hp, _⟩ := hk
          cases hp
      cases hg : (entries roots).get? (maxByScoreLast (scoreLoop sc roots
          (txt_nodes sc roots).length 0 1 (txt_nodes sc roots) [])).1 with
      | some e => rfl
      | none =>
          exfalso
          have := List.get?_eq_none.mp hg
          omega

theorem article_node_isSome (sc : StopCounter) (roots : List HNode) (h : roots ≠ []) :
    (article_node sc roots).isSome := by
  have hlen := entries_nonempty roots h
  unfold article_node
  cases hf : (entries roots).filter bodyDescendantMatch with
  | nil => exact calculate_best_node_isSome sc roots hlen
  | cons a rest =>
      cases rest with
      | nil => simp
      | cons b t => exact calculate_best_node_isSome sc roots hlen

theorem article_body_pred_of_itemprop (n : HNode)
    (h : attrIs n "itemprop" "articleBody" = true) : article_body_predicate n = true := by
  unfold article_body_predicate
  refine List.any_eq_true.mpr ⟨("itemprop", "articleBody"), ?_, h⟩
  simp [ARTICLE_BODY_ATTR]

theorem article_node_itemprop (sc : StopCounter) (roots : List HNode)
    (h : ∃ e ∈ entries roots, e.ancestors.any (isNamedElem "body") = true ∧
      attrIs e.node "itemprop" "articleBody" = true) :
    ∃ r, article_node sc roots = some r ∧ r.confidence_score ≥ 19/20 ∧
      attrIs r.entry.node "itemprop" "articleBody" = true := by
  obtain ⟨e, he, hanc, hattr⟩ := h
  have hmatch : bodyDescendantMatch e = true := by
    unfold bodyDescendantMatch
    rw [hanc, article_body_pred_of_itemprop e.node hattr]
    rfl
  have hefil : e ∈ (entries roots).filter bodyDescendantMatch :=
    List.mem_filter.mpr ⟨he, hmatch⟩
  have hfind : ∃ y, (entries roots).find?
      (fun e => attrIs e.node "itemprop" "articleBody") = some y := by
    have hs : ((entries roots).find?
        (fun e => attrIs e.node "itemprop" "articleBody")).isSome :=
      List.find?_isSome.mpr ⟨e, he, hattr⟩
    exact Option.isSome_iff_exists.mp hs
  unfold article_node
  cases hf : (entries roots).filter bodyDescendantMatch with
  | nil =>
      rw [hf] at hefil
      cases hefil
  | cons a rest =>
      cases rest with
      | nil =>
          rw [hf] at hefil
          have he_a : e = a := by simpa using hefil
          refine ⟨⟨a, 1⟩, rfl, by norm_num, ?_⟩
          rw [← he_a]
          exact hattr
      | cons b t =>
          obtain ⟨y, hy⟩ := hfind
          have hpy : attrIs y.node "itemprop" "articleBody" = true :=
            @List.find?_some Entry (fun e => attrIs e.node "itemprop" "articleBody")
              y (entries roots) hy
          refine ⟨⟨y, 19/20⟩, ?_, le_refl _, hpy⟩
          show calculate_best_node sc roots = _
          unfold calculate_best_node
          rw [hy]

theorem txt_nodes_link_density (sc : StopCounter) (roots : List HNode)
    (t : Entry × WordsStats × Nat) (ht : t ∈ txt_nodes sc roots) :
    link_density t.1.node ≤ MAX_LINK_DENSITY :=
  not_lt.mp (txt_nodes_mem sc roots t ht).2

theorem dedupAuthors_notin (l : List String) :
    ∀ seen, ∀ a ∈ dedupAuthors l seen, lowerStr a ∉ seen := by
  induction l with
  | nil =>
      intro seen a ha
      cases ha
  | cons x xs ih =>
      intro seen a ha
      simp only [dedupAuthors] at ha
      split at ha
      next hc =>
        rcases List.mem_cons.mp ha with ha | ha
        · subst ha
          simp only [Bool.and_eq_true] at hc
          simpa using hc.2
        · have := ih (lowerStr (clean_author x) :: seen) a ha
          intro hmem
          exact this (List.mem_cons_of_mem _ hmem)
      next hc =>
        exact ih seen a ha

theorem dedupAuthors_pairwise (l : List String) :
    ∀ seen, List.Pairwise (fun a b => lowerStr a ≠ lowerStr b) (dedupAuthors l seen) := by
  induction l with
  | nil =>
      intro seen
      exact List.Pairwise.nil
  | cons x xs ih =>
      intro seen
      simp only [dedupAuthors]
      split
      next hc =>
        refine List.Pairwise.cons ?_ (ih _)
        intro b hb
        have hb2 := dedupAuthors_notin xs (lowerStr (clean_author x) :: seen) b hb
        intro heq
        apply hb2
        rw [← heq]
        exact List.mem_cons_self _ _
      next hc =>
        exact ih seen

theorem authors_pairwise (roots : List HNode) :
    List.Pairwise (fun a b => lowerStr a < lowerStr b) (authors roots) := by
  unfold authors
  have hne : List.Pairwise (fun a b => lowerStr a ≠ lowerStr b)
      (dedupAuthors (rawAuthors roots) []) := dedupAuthors_pairwise _ []
  have hperm := List.mergeSort_perm (dedupAuthors (rawAuthors roots) []) authorsLe
  have hne2 : List.Pairwise (fun a b => lowerStr a ≠ lowerStr b)
      ((dedupAuthors (rawAuthors roots) []).mergeSort authorsLe) :=
    (List.Perm.pairwise_iff (fun h => h.symm) hperm).mpr hne
  have htrans : ∀ a b c : String, authorsLe a b = true → authorsLe b c = true →
      authorsLe a c = true := by
    intro a b c h1 h2
    simp only [authorsLe, decide_eq_true_eq] at h1 h2 ⊢
    exact le_trans h1 h2
  have htotal : ∀ a b : String, (authorsLe a b || authorsLe b a) = true := by
    intro a b
    simp only [authorsLe, Bool.or_eq_true, decide_eq_true_eq]
    exact le_total _ _
  have hsorted := List.sorted_mergeSort htrans htotal (dedupAuthors (rawAuthors roots) [])
  refine (hsorted.and hne2).imp ?_
  intro a b hab
  refine lt_iff_le_and_ne.mpr ⟨?_, hab.2⟩
  have := hab.1
  simpa [authorsLe, decide_eq_true_eq] using this

theorem negBoost_trailing (b : ℚ) (N i : Nat) (hN : 15 < N)
    (hpos : ((N - i : Nat) : ℚ) ≤ max 1 ((N : ℚ) / 4)) :
    negBoost N i b =
      (if ((N : ℚ) / 4 - ((N - i : Nat) : ℚ)) ^ 2 + negative_scoring > 40 then (5 : ℚ)
       else -(((N : ℚ) / 4 - ((N - i : Nat) : ℚ)) ^ 2)) ∧
    (negBoost N i b ≤ 0 ∨ negBoost N i b = 5) := by
  have h16 : (16 : ℚ) ≤ (N : ℚ) := by exact_mod_cast hN
  have hmax : max ((N : ℚ) * (1 / 4)) 1 = (N : ℚ) / 4 := by
    rw [max_eq_left]
    · ring
    · linarith
  have hmax2 : max (1 : ℚ) ((N : ℚ) / 4) = (N : ℚ) / 4 := by
    rw [max_eq_right]
    linarith
  rw [hmax2] at hpos
  have hcond : ((N - i : Nat) : ℚ) ≤ max ((N : ℚ) * (1 / 4)) 1 := by
    rw [hmax]; exact hpos
  have habs : |((max ((N : ℚ) * (1 / 4)) 1 - ((N - i : Nat) : ℚ)) ^ 2 * (-1))| =
      (max ((N : ℚ) * (1 / 4)) 1 - ((N - i : Nat) : ℚ)) ^ 2 := by
    rw [mul_neg_one, abs_neg, abs_of_nonneg (sq_nonneg _)]
  constructor
  · unfold negBoost
    rw [if_pos hN, if_pos hcond]
    dsimp only
    rw [habs, hmax]
    split
    next hgt => rfl
    next hgt => ring
  · unfold negBoost
    rw [if_pos hN, if_pos hcond]
    dsimp only
    rw [habs]
    split
    next => right; rfl
    next =>
      left
      have := sq_nonneg (max ((N : ℚ) * (1 / 4)) 1 - ((N - i : Nat) : ℚ))
      nlinarith

theorem allUrlsGo_eq_dedupSeen (l : List Entry) :
    ∀ seen, allUrlsGo l seen = dedupSeen (l.filterMap fun e =>
      if isNamedElem "a" e.node then (attrOf e.node "href").map sTrim else none) seen := by
  induction l with
  | nil => intro seen; rfl
  | cons e rest ih =>
      intro seen
      simp only [allUrlsGo, List.filterMap_cons]
      cases hx : if isNamedElem "a" e.node then (attrOf e.node "href").map sTrim else none with
      | none => exact ih seen
      | some t =>
          simp only [dedupSeen]
          cases hc : seen.contains t with
          | true =>
              simp only [hc, if_true]
              exact ih seen
          | false =>
              simp only [hc, Bool.false_eq_true, if_false]
              rw [ih (t :: seen)]

theorem dedupSeen_eq_dedupKeepFirst (l : List String) :
    ∀ seen, dedupSeen l seen = dedupKeepFirst (l.filter fun y => !seen.contains y) := by
  induction l with
  | nil =>
      intro seen
      simp [dedupSeen, dedupKeepFirst]
  | cons x xs ih =>
      intro seen
      simp only [dedupSeen, List.filter_cons]
      cases hc : seen.contains x with
      | true =>
          simp only [hc, if_true, Bool.not_true, Bool.false_eq_true, if_false]
          exact ih seen
      | false =>
          simp only [hc, Bool.not_false, if_true, Bool.false_eq_true, if_false]
          rw [dedupKeepFirst, ih (x :: seen)]
          have hfil : (xs.filter fun y => !(x :: seen).contains y) =
              ((xs.filter fun y => !seen.contains y).filter fun y => y ≠ x) := by
            rw [List.filter_filter]
            apply List.filter_congr
            intro y _
            by_cases h : y = x
            · simp [h, List.contains_cons]
            · simp [h, List.contains_cons]
          rw [hfil]

theorem dedupKeepFirst_sublist (l : List String) :
    List.Sublist (dedupKeepFirst l) l := by
  induction l using dedupKeepFirst.induct with
  | case1 => simp [dedupKeepFirst]
  | case2 x xs ih =>
      rw [dedupKeepFirst]
      exact (ih.trans (List.filter_sublist xs)).cons₂ x

theorem dedupKeepFirst_complete (l : List String) : ∀ a ∈ l, a ∈ dedupKeepFirst l := by
  induction l using dedupKeepFirst.induct with
  | case1 => intro a ha; cases ha
  | case2 x xs ih =>
      intro a ha
      rw [dedupKeepFirst]
      rcases List.mem_cons.mp ha with ha | ha
      · exact ha ▸ List.mem_cons_self _ _
      · by_cases hax : a = x
        · exact hax ▸ List.mem_cons_self _ _
        · refine List.mem_cons_of_mem _ (ih a ?_)
          exact List.mem_filter.mpr ⟨ha, by simpa using hax⟩

theorem dedupKeepFirst_nodup (l : List String) : (dedupKeepFirst l).Nodup := by
  induction l using dedupKeepFirst.induct with
  | case1 => simp [dedupKeepFirst]
  | case2 x xs ih =>
      rw [dedupKeepFirst]
      refine List.Nodup.cons ?_ ih
      intro hmem
      have hsub := (dedupKeepFirst_sublist (xs.filter fun y => y ≠ x)).mem hmem
      have := (List.mem_filter.mp hsub).2
      simp at this

theorem all_urls_spec (roots : List HNode) :
    all_urls roots = dedupKeepFirst (aHrefs roots) ∧
    (all_urls roots).Nodup ∧
    List.Sublist (all_urls roots) (aHrefs roots) ∧
    ∀ h ∈ aHrefs roots, h ∈ all_urls roots := by
  have heq : all_urls roots = dedupKeepFirst (aHrefs roots) := by
    unfold all_urls aHrefs
    rw [allUrlsGo_eq_dedupSeen, dedupSeen_eq_dedupKeepFirst]
    congr 1
    simp
  refine ⟨heq, ?_, ?_, ?_⟩
  · rw [heq]; exact dedupKeepFirst_nodup _
  · rw [heq]; exact dedupKeepFirst_sublist _
  · intro h hh
    rw [heq]
    exact dedupKeepFirst_complete _ h hh

theorem meta_content_head_only (roots : List HNode) (k v : String) :
    (∀ s, meta_content roots k v = some s →
      ∃ e ∈ entries roots, hasHeadAncestor e = true ∧ isNamedElem "meta" e.node = true ∧
        attrIs e.node k v = true ∧ (attrOf e.node "content").map sTrim = some s ∧ s ≠ "") ∧
    ((∀ e ∈ entries roots, ¬(hasHeadAncestor e = true ∧ isNamedElem "meta" e.node = true ∧
        attrIs e.node k v = true)) → meta_content roots k v = none) := by
  constructor
  · intro s hs
    unfold meta_content at hs
    have hmem : s ∈ ((entries roots).filter fun e =>
        hasHeadAncestor e && isNamedElem "meta" e.node && attrIs e.node k v).filterMap
        fun e => ((attrOf e.node "content").map sTrim).filter fun t => t ≠ "" := by
      cases hls : ((entries roots).filter fun e =>
          hasHeadAncestor e && isNamedElem "meta" e.node && attrIs e.node k v).filterMap
          fun e => ((attrOf e.node "content").map sTrim).filter fun t => t ≠ "" with
      | nil => rw [hls] at hs; cases hs
      | cons a t =>
          rw [hls] at hs
          simp only [List.head?] at hs
          cases hs
          exact List.mem_cons_self _ _
    obtain ⟨e, hef, hfe⟩ := List.mem_filterMap.mp hmem
    have hfl := List.mem_filter.mp hef
    have hpr := hfl.2
    simp only [Bool.and_eq_true] at hpr
    have hsc : (attrOf e.node "content").map sTrim = some s ∧ s ≠ "" := by
      cases hc : attrOf e.node "content" with
      | none => rw [hc] at hfe; cases hfe
      | some c =>
          rw [hc] at hfe
          simp only [Option.map_some'] at hfe ⊢
          by_cases hne : sTrim c = ""
          · simp [Option.filter, hne] at hfe
          · simp [Option.filter, hne] at hfe
            exact ⟨congrArg some hfe, hfe ▸ hne⟩
    exact ⟨e, hfl.1, hpr.1.1, hpr.1.2, hpr.2, hsc.1, hsc.2⟩
  · intro hnone
    unfold meta_content
    have hfil : ((entries roots).filter fun e =>
        hasHeadAncestor e && isNamedElem "meta" e.node && attrIs e.node k v) = [] := by
      apply List.filter_eq_nil_iff.mpr
      intro e he
      have := hnone e he
      intro hcon
      simp only [Bool.and_eq_true] at hcon
      exact this ⟨hcon.1.1, hcon.1.2, hcon.2⟩
    rw [hfil]
    rfl

/-! ## Helper for witnesses -/

theorem mem_headD {α : Type} (l : List α) (d : α) (h : l ≠ []) : l.headD d ∈ l := by
  cases l with
  | nil => exact absurd rfl h
  | cons x xs => exact List.mem_cons_self _ _

/-! ## The claims -/

/-- Claim C1 (corrected).  The claim says the body-node selection returns
`None` exactly on documents with no `<body>`; in fact it never returns
`None`: for every stopword counter and every parsed document with at
least one node — in particular one whose DOM contains no `<body>` —
`article_node` returns `some` node (the scorer falls back to node index
0 when no candidate scores). -/
theorem claim1_selection_total (sc : StopCounter) (roots : List HNode)
    (h : roots ≠ []) : (article_node sc roots).isSome = true :=
  article_node_isSome sc roots h

/-- Witness for C1: the concrete no-`<body>` document still yields
`some`. -/
theorem claim1_witness : (article_node engCounter docNoBody).isSome = true :=
  claim1_selection_total engCounter docNoBody (List.cons_ne_nil _ _)

/-- Counterexample for C1 as stated: `docNoBody` has no `<body>` element
anywhere, yet the selection returns `some` rather than `none`. -/
theorem claim1_counterexample :
    ((entries docNoBody).all fun e => !isNamedElem "body" e.node) = true ∧
    (article_node engCounter docNoBody).isSome = true := by
  constructor
  · with_unfolding_all rfl
  · with_unfolding_all rfl

/-- Claim C2 (corrected).  When at least one node carrying
`itemprop="articleBody"` lies strictly inside a `<body>` element, the
selection returns a node bearing `itemprop="articleBody"` with
confidence at least `0.95` (either the unique `ARTICLE_BODY_ATTR` match
under `<body>` at confidence `1`, or the document's first
`itemprop="articleBody"` node at confidence `0.95`). -/
theorem claim2_itemprop_selected (sc : StopCounter) (roots : List HNode)
    (h : ∃ e ∈ entries roots, e.ancestors.any (isNamedElem "body") = true ∧
      attrIs e.node "itemprop" "articleBody" = true) :
    ∃ r, article_node sc roots = some r ∧ r.confidence_score ≥ 19/20 ∧
      attrIs r.entry.node "itemprop" "articleBody" = true :=
  article_node_itemprop sc roots h

/-- Witness for C2: a document with an `itemprop="articleBody"` `<div>`
inside `<body>`. -/
theorem claim2_witness :
    ∃ r, article_node engCounter docBodyItemprop = some r ∧
      r.confidence_score ≥ 19/20 ∧
      attrIs r.entry.node "itemprop" "articleBody" = true :=
  claim2_itemprop_selected engCounter docBodyItemprop (by with_unfolding_all decide)

/-- Counterexample for C2 as stated: `docHeadItemprop` contains an
`itemprop="articleBody"` node (a `<meta>` in `<head>`), yet the selected
node (the unique `class="content"` `<div>` under `<body>`, index 4,
confidence 1) carries no `itemprop` attribute at all. -/
theorem claim2_counterexample :
    ((entries docHeadItemprop).any fun e => attrIs e.node "itemprop" "articleBody") = true ∧
    (article_node engCounter docHeadItemprop).map
      (fun r => (r.entry.idx, attrOf r.entry.node "itemprop", r.confidence_score)) =
      some (4, none, 1) := by
  constructor
  · with_unfolding_all rfl
  · with_unfolding_all rfl

/-- Claim C3 (corrected).  A candidate whose link density exceeds `0.5`
never survives the candidate filter: every tuple of the scoring list
`txt_nodes` has link density at most `MAX_LINK_DENSITY`.  (The returned
body node, however, is chosen among parents and grandparents of the
surviving candidates and can itself be an enumerated candidate with
link density above `0.5`, as the counterexample shows.) -/
theorem claim3_scored_link_density (sc : StopCounter) (roots : List HNode)
    (t : Entry × WordsStats × Nat) (ht : t ∈ txt_nodes sc roots) :
    link_density t.1.node ≤ MAX_LINK_DENSITY :=
  txt_nodes_link_density sc roots t ht

/-- Witness for C3: the first surviving candidate of the two-candidate
document. -/
theorem claim3_witness :
    link_density ((txt_nodes engCounter docTie).headD dfltCandidate).1.node ≤
      MAX_LINK_DENSITY := by
  apply claim3_scored_link_density engCounter docTie
  apply mem_headD
  apply List.ne_nil_of_length_pos
  rw [show (txt_nodes engCounter docTie).length = 2 from by with_unfolding_all rfl]
  norm_num

/-- Counterexample for C3 as stated: in `docLinkHeavy` the selected node
(index 2, the `<div class="story">`) is itself an enumerated candidate
(`is_text_node` holds and `TextNodeFind` yields it) whose link density
exceeds `MAX_LINK_DENSITY` — it was excluded from scoring, but received
its child paragraph's score as the parent and won. -/
theorem claim3_counterexample :
    (article_node engCounter docLinkHeavy).map
      (fun r => (r.entry.idx, decide (link_density r.entry.node > MAX_LINK_DENSITY),
        is_text_node r.entry.node, tnfYield r.entry)) = some (2, true, true, true) := by
  with_unfolding_all rfl

/-- Claim C4 (code_bug).  The spec demands that score ties select the
smaller node index.  The code's accumulator is a `HashMap` iterated in
arbitrary order and `max_by_key` keeps the LAST maximal entry, so the
tie-break is not the smaller index (and, over the real `HashMap`'s
randomized iteration order, not deterministic at all).  Evaluated on
`docTie` under the insertion-order model: the parents at indices 2 and 5
tie at score 9, and index 5 — the larger — is selected. -/
theorem claim4_tie_selects_larger_index :
    nodes_scores engCounter docTie = [(2, 9, 1), (1, 6, 2), (5, 9, 1)] ∧
    (article_node engCounter docTie).map (fun r => r.entry.idx) = some 5 := by
  constructor
  · with_unfolding_all rfl
  · with_unfolding_all rfl

/-- Claim C5 (corrected).  On the byline
`"By Jane Doe, JANE DOE, Reuters"` the author extractor returns
`["JANE DOE"]`, not `["Jane Doe"]`: the token `"By Jane Doe"` is
truncated to its first two words before stop-word stripping, leaving the
single word `"Jane"`, which the final 2–4-word validity re-check
discards; `"JANE DOE"` survives with its original casing. -/
theorem claim5_authors_value : authors docAuthorsMeta = ["JANE DOE"] := by
  with_unfolding_all rfl

/-- Counterexample for C5 as stated: the extracted list is not
`["Jane Doe"]`. -/
theorem claim5_counterexample :
    (authors docAuthorsMeta == ["Jane Doe"]) = false := by
  with_unfolding_all rfl

/-- Claim C6 (code_bug).  On
`<head><title>Hello | Site</title></head>` with no title metas and no
`<h1>`, the title extractor returns `none`, not `"Hello"`: the source
calls `as_text()` on the `<title>` (and `<h1>`) element nodes, which is
`None` for element nodes — the text lives in the child text node — so
steps 2–4 of the extractor can never produce a value. -/
theorem claim6_title_none : title docTitleOnly = none := by
  with_unfolding_all rfl

/-- Claim C7 (confirmed).  For every document, the author list is
strictly sorted by the lower-cased form of each name; in particular it
is sorted ascending by lowercase form and contains no two entries that
are equal case-insensitively. -/
theorem claim7_authors_sorted_unique (roots : List HNode) :
    List.Pairwise (fun a b => lowerStr a < lowerStr b) (authors roots) :=
  authors_pairwise roots

/-- Claim C8 (confirmed).  In the scoring loop with `N > 15` surviving
candidates, a candidate whose position from the end is within
`max(1, 0.25·N)` has its boost overwritten (whatever boostable bonus `b`
it had) by `-booster²` for `booster = 0.25·N − (N − i)`, clamped to `5`
when `booster²` plus the (constantly zero) running negative total
exceeds `40`; hence the boost is non-positive unless clamped to `5`. -/
theorem claim8_trailing_boost (b : ℚ) (N i : Nat) (hN : 15 < N)
    (hpos : ((N - i : Nat) : ℚ) ≤ max 1 ((N : ℚ) / 4)) :
    negBoost N i b =
      (if ((N : ℚ) / 4 - ((N - i : Nat) : ℚ)) ^ 2 + negative_scoring > 40 then (5 : ℚ)
       else -(((N : ℚ) / 4 - ((N - i : Nat) : ℚ)) ^ 2)) ∧
    (negBoost N i b ≤ 0 ∨ negBoost N i b = 5) :=
  negBoost_trailing b N i hN hpos

/-- Witness for C8: the last of 20 candidates, whatever bonus it had
before, gets boost `-16 ≤ 0`. -/
theorem claim8_witness : negBoost 20 19 7 ≤ 0 ∨ negBoost 20 19 7 = 5 :=
  (claim8_trailing_boost 7 20 19 (by norm_num) (by
    rw [show ((20 - 19 : Nat) : ℚ) = 1 from by norm_num]
    exact le_max_left 1 ((20 : ℚ) / 4))).2

/-- Claim C9 (confirmed).  `all_urls` returns exactly the trimmed `href`
of every `<a>` element that has one, in document order, with exact
duplicates removed keeping each first occurrence: it equals the
first-seen deduplication of the href list, has no duplicates, is a
sublist of the raw href list (so order and first positions are
preserved), and contains every href that occurs. -/
theorem claim9_all_urls (roots : List HNode) :
    all_urls roots = dedupKeepFirst (aHrefs roots) ∧
    (all_urls roots).Nodup ∧
    List.Sublist (all_urls roots) (aHrefs roots) ∧
    ∀ h ∈ aHrefs roots, h ∈ all_urls roots :=
  all_urls_spec roots

/-- Witness for C9: the duplicated href of `docUrls` appears in the
extracted list. -/
theorem claim9_witness : "u1" ∈ all_urls docUrls :=
  (claim9_all_urls docUrls).2.2.2 "u1" (by with_unfolding_all decide)

/-- Claim C10 (confirmed).  The shared `<meta>` reader behind the title
meta keys, the canonical `og:url` fallback, the `og:image` top image,
the thumbnail and the language fallbacks only ever reads `<meta>`
elements that are descendants of a `<head>` element: any value it
returns comes from such a node, and when no matching `<meta>` lies
under `<head>` it returns `none` regardless of matching `<meta>`
elements elsewhere. -/
theorem claim10_meta_head_only (roots : List HNode) (k v : String) :
    (∀ s, meta_content roots k v = some s →
      ∃ e ∈ entries roots, hasHeadAncestor e = true ∧ isNamedElem "meta" e.node = true ∧
        attrIs e.node k v = true ∧ (attrOf e.node "content").map sTrim = some s ∧ s ≠ "") ∧
    ((∀ e ∈ entries roots, ¬(hasHeadAncestor e = true ∧ isNamedElem "meta" e.node = true ∧
        attrIs e.node k v = true)) → meta_content roots k v = none) :=
  meta_content_head_only roots k v

/-- Witness for C10: the head `og:url` meta of `docMetaHead` is found
(with trimmed content), while the same meta placed in `<body>` in
`docMetaOutsideHead` is never used. -/
theorem claim10_witness :
    (∃ e ∈ entries docMetaHead, hasHeadAncestor e = true ∧
      isNamedElem "meta" e.node = true ∧ attrIs e.node "property" "og:url" = true ∧
      (attrOf e.node "content").map sTrim = some "https://x/final" ∧
      ("https://x/final" : String) ≠ "") ∧
    meta_content docMetaOutsideHead "property" "og:url" = none :=
  ⟨(claim10_meta_head_only docMetaHead "property" "og:url").1 "https://x/final"
      (by with_unfolding_all rfl),
   (claim10_meta_head_only docMetaOutsideHead "property" "og:url").2
      (by with_unfolding_all decide)⟩
